import Mathlib

/-!
Verification development for the SMART-task evaluation script
(`src/evaluation/dbpedia/evaluate.py`).

The script scores a type-prediction system against a gold standard over a
single-parent type hierarchy.  We embed the data model and the scoring
pipeline shallowly:

* the type hierarchy (a Python dict from type name to its parent name and
  depth) becomes an association list `Hierarchy` read through `List.lookup`;
* `get_type_path`'s while-loop is embedded with explicit fuel
  (`getTypePathFuel`); under the documented depth-consistency invariant the
  walk makes exactly `depth` steps, so fuel `maxDepthOf h + 1` reproduces the
  loop exactly (on a cyclic table the Python loop diverges, and every theorem
  below assumes the invariant `consistent`);
* distances live in `ℕ∞` (`math.inf` becomes `⊤`);
* gains live in `WithBot ℚ`: the source computes `1 - min_distance/max_depth`
  on floats, which is `-inf` (our `⊥`) when `min_distance` is infinite;
* Python sets are modelled as lists up to deduplication; every set produced
  by the script is only consumed through membership, minima over its
  elements, or descending sorting, all order-independent;
* `dcg`/`ndcg` work on real numbers (idealising float arithmetic), with
  Python's `ZeroDivisionError` surfaced as an `Option`;
* the per-question state machine of `evaluate` becomes `evaluateQuestion`,
  and the loop over the ground truth, which threads the one structure the
  source mutates besides the path cache (the `system_output` dict, which
  receives an empty record for every missing question id), becomes
  `evaluateRun`.  The path cache itself is modelled by recomputation, which
  is observationally equivalent for the pure path function.

Functions that the source only reaches by raising (`KeyError` on a type
absent from the hierarchy, `IndexError` on an empty type list in the literal
branch) are totalised with innocuous values; every theorem stays inside the
exception-free region via explicit membership hypotheses, mirroring the
spec's stated preconditions.
-/

namespace SmartTask

/-- One row of the type hierarchy: the parent type's name and the node's
root-relative depth, as loaded by `load_type_hierarchy`. -/
structure TypeNode where
  parent : String
  depth : Nat
deriving DecidableEq, Repr

/-- The type hierarchy: Python's `types` dict, read through `List.lookup`. -/
abbrev Hierarchy := List (String × TypeNode)

/-- Membership test for a type name (`type in type_hierarchy`). -/
def hasType (h : Hierarchy) (t : String) : Bool :=
  (List.lookup t h).isSome

/-- The maximum depth over all rows, as accumulated by `load_type_hierarchy`
(`max_depth = max(depth, max_depth)` starting from 0). -/
def maxDepthOf (h : Hierarchy) : Nat :=
  h.foldl (fun m p => max p.2.depth m) 0

/-- The depth recorded for a type (`type_hierarchy[type]['depth']`); the
source raises `KeyError` for a type not in the hierarchy, totalised as 0. -/
def depthOf (h : Hierarchy) (t : String) : Nat :=
  match List.lookup t h with
  | some n => n.depth
  | none => 0

/-- The parent recorded for a type (`type_hierarchy[type]['parent']`); the
source raises `KeyError` for a type not in the hierarchy, totalised as the
type itself. -/
def parentOf (h : Hierarchy) (t : String) : String :=
  match List.lookup t h with
  | some n => n.parent
  | none => t

/-- The k-fold iterated parent: `ancestorAt h k t` is the type reached from
`t` by `k` parent hops. -/
def ancestorAt (h : Hierarchy) : Nat → String → String
  | 0, t => t
  | k + 1, t => parentOf h (ancestorAt h k t)

/-- Depth-consistency of one dict entry: the key's depth is one more than its
parent's depth, or 1 when the parent lies outside the table (the root
boundary).  This is the invariant the spec states for `TypeNode`. -/
def nodeOkB (h : Hierarchy) (p : String × TypeNode) : Bool :=
  match List.lookup p.1 h with
  | none => true
  | some n =>
    match List.lookup n.parent h with
    | some pn => n.depth == pn.depth + 1
    | none => n.depth == 1

/-- Depth-consistency of the whole hierarchy: every node's depth equals its
number of parent hops to the root boundary (stated locally per entry).  The
invariant also rules out cycles, since depth strictly decreases along parent
links. -/
def consistent (h : Hierarchy) : Prop :=
  ∀ p ∈ h, nodeOkB h p = true

instance (h : Hierarchy) : Decidable (consistent h) :=
  List.decidableBAll _ h

/-- The while-loop body of `get_type_path` with explicit fuel: walk parent
links, collecting names, until a name outside the table is reached (or the
fuel runs out; under `consistent` the fuel below never does). -/
def getTypePathFuel (h : Hierarchy) : Nat → String → List String
  | 0, _ => []
  | fuel + 1, t =>
    match List.lookup t h with
    | none => []
    | some n => t :: getTypePathFuel h fuel n.parent

/-- `get_type_path`: the type's path in the hierarchy, from the type itself
up to (excluding) the root boundary.  Under `consistent` the walk makes
exactly `depth ≤ maxDepthOf h` collecting steps, so this fuel is enough.
The source caches the result inside the hierarchy dict; recomputing a pure
function is observationally equivalent.  For a type not in the hierarchy the
source raises `KeyError`; here the path is `[]`. -/
def getTypePath (h : Hierarchy) (t : String) : List String :=
  getTypePathFuel h (maxDepthOf h + 1) t

/-- `get_type_distance`: number of steps between two types when they lie on
the same root path, `⊤` (the source's `math.inf`) otherwise.  Written as the
source computes it: start at infinity, replace by `type2_path.index(type1)`
when found, then take the minimum with `type1_path.index(type2)` when
found. -/
def get_type_distance (h : Hierarchy) (type1 type2 : String) : ℕ∞ :=
  let type1_path := getTypePath h type1
  let type2_path := getTypePath h type2
  let d1 : ℕ∞ := if type1 ∈ type2_path then (type2_path.indexOf type1 : Nat) else ⊤
  if type2 ∈ type1_path then min (type1_path.indexOf type2 : Nat) d1 else d1

/-- `get_most_specific_types`: drop from the input set every type that is a
strict ancestor (a member of `path[1:]`) of some input type.  The Python
`set` is modelled as the deduplicated input list; `discard` is `erase`. -/
def get_most_specific_types (h : Hierarchy) (types : List String) : List String :=
  types.foldl
    (fun filtered t => ((getTypePath h t).drop 1).foldl (fun f s => f.erase s) filtered)
    types.dedup

/-- The keys of the hierarchy dict, for `for type2 in type_hierarchy`. -/
def hierarchyKeys (h : Hierarchy) : List String :=
  (h.map Prod.fst).dedup

/-- `get_expanded_types`: close a set of types under ancestors (the full
path of each member) and descendants (the full path of every strictly deeper
hierarchy node whose path contains the member).  The resulting Python set is
modelled as a deduplicated list. -/
def get_expanded_types (h : Hierarchy) (types : List String) : List String :=
  (types.flatMap fun t =>
    getTypePath h t ++
      (hierarchyKeys h).flatMap fun type2 =>
        if depthOf h type2 ≤ depthOf h t then []
        else if t ∈ getTypePath h type2 then getTypePath h type2
        else []).dedup

/-- The gain value `1 - min_distance / max_depth` for a finite minimum
distance; for an infinite one the float arithmetic of the source yields
`-inf`, our `⊥`. -/
def gainOfDistance (max_depth : Nat) (d : ℕ∞) : WithBot ℚ :=
  if d = ⊤ then ⊥
  else ((1 - (d.toNat : ℚ) / (max_depth : ℚ) : ℚ) : WithBot ℚ)

/-- The minimum over the gold types of the distance to a predicted type,
starting from infinity, exactly as the loop in `compute_type_gains`. -/
def minGoldDistance (h : Hierarchy) (gold_types : List String) (pt : String) : ℕ∞ :=
  gold_types.foldl (fun m g => min (get_type_distance h pt g) m) ⊤

/-- `compute_type_gains`: one gain per predicted entry, in rank order.  A
predicted entry is an `Option String` because the scorer feeds the literal
`[None]` prediction of a missing system record through this list; `none` is
never a member of the (string) expanded gold set, so it gains 0, exactly as
in Python.  A predicted type outside the expanded gold set gains 0,
otherwise `1 - min_distance / max_depth`. -/
def compute_type_gains (h : Hierarchy) (max_depth : Nat)
    (predicted_types : List (Option String)) (gold_types : List String) :
    List (WithBot ℚ) :=
  let expanded_gold_types := get_expanded_types h gold_types
  predicted_types.map fun predicted_type =>
    match predicted_type with
    | none => 0
    | some pt =>
      if pt ∈ expanded_gold_types then
        gainOfDistance max_depth (minGoldDistance h gold_types pt)
      else 0

/-- Descending sort (`sorted(..., reverse=True)`).  Insertion sort is used
because it is structurally recursive; it produces the same list as any
sorting algorithm on a list of values ordered by a total order. -/
def sortGainsDesc (l : List (WithBot ℚ)) : List (WithBot ℚ) :=
  List.insertionSort (· ≥ ·) l

/-- The ideal gain sequence of the resource branch: the expanded gold
closure scored against the gold set, sorted descending. -/
def ideal_gains_of (h : Hierarchy) (max_depth : Nat) (gold_types : List String) :
    List (WithBot ℚ) :=
  sortGainsDesc
    (compute_type_gains h max_depth
      ((get_expanded_types h gold_types).map some) gold_types)

/-- A ground-truth question record: the gold category and the gold list of
types (already filtered by the loader to types in the hierarchy when the
category is resource). -/
structure GoldRecord where
  category : String
  type : List String
deriving DecidableEq, Repr

/-- A system-output record: the predicted category and the ranked type
list. -/
structure SysRecord where
  category : String
  type : List String
deriving DecidableEq, Repr

/-- The system-output dict.  An entry's value is `none` for the empty dict
that `evaluate` itself inserts for a gold question id with no prediction
(`system_output[question_id] = dict()`): such a record answers `none` to the
`.get` of a category and `[None]` to the `.get` of a type list. -/
abbrev SysMap := List (String × Option SysRecord)

/-- What one gold question contributes to the aggregates of `evaluate`:
an accuracy 0 and no type evaluation (category mismatch), an accuracy 1 and
no type evaluation (the continue branches), or an accuracy 1 together with
the gain and ideal-gain sequences handed to `ndcg`. -/
inductive Contribution where
  | mismatch : Contribution
  | skipped : Contribution
  | scored : List (WithBot ℚ) → List (WithBot ℚ) → Contribution
deriving DecidableEq, Repr

/-- The accuracy value a contribution appends (`accuracy.append(0)` or
`accuracy.append(1)`). -/
def accContribution : Contribution → Nat
  | Contribution.mismatch => 0
  | _ => 1

/-- The pair of sequences a contribution hands to `ndcg` for the NDCG@5 and
NDCG@10 aggregates, if any. -/
def ndcgContribution : Contribution → Option (List (WithBot ℚ) × List (WithBot ℚ))
  | Contribution.scored gains ideal_gains => some (gains, ideal_gains)
  | _ => none

/-- The per-question body of `evaluate`, after the missing-prediction
substitution: `sysOut = none` stands for the inserted empty dict, whose
`.get('category', None)` is `None` and `.get('type', [None])` is `[None]`.
The literal branch compares the first gold type with the first predicted
entry (the source raises `IndexError` on an empty list there; the match
totalises that case to gain 0).  The resource branch checks the raw gold
type list for emptiness, filters it to most-specific types, and scores. -/
def evaluateQuestion (h : Hierarchy) (max_depth : Nat)
    (gold : GoldRecord) (sysOut : Option SysRecord) : Contribution :=
  let predicted_category : Option String := sysOut.map (fun r => r.category)
  let predicted_type : List (Option String) :=
    match sysOut with
    | none => [none]
    | some r => r.type.map some
  if predicted_category ≠ some gold.category then Contribution.mismatch
  else if gold.category = "literal" then
    Contribution.scored
      (match gold.type, predicted_type with
        | g0 :: _, p0 :: _ => [if some g0 = p0 then (1 : WithBot ℚ) else 0]
        | _, _ => [0])
      [1]
  else if gold.category = "resource" then
    if gold.type = [] then Contribution.skipped
    else
      let gold_types := get_most_specific_types h gold.type
      Contribution.scored
        (compute_type_gains h max_depth predicted_type gold_types)
        (ideal_gains_of h max_depth gold_types)
  else Contribution.skipped

/-- One iteration of the loop of `evaluate`: look the question id up in the
(threaded) system output; when absent, insert the empty record first, as
`system_output[question_id] = dict()` does. -/
def evaluateStep (h : Hierarchy) (max_depth : Nat) (so : SysMap)
    (q : String × GoldRecord) : SysMap × Contribution :=
  match List.lookup q.1 so with
  | none => (so ++ [(q.1, none)], evaluateQuestion h max_depth q.2 none)
  | some entry => (so, evaluateQuestion h max_depth q.2 entry)

/-- The loop of `evaluate` over the ground truth, threading the
system-output dict (the one input structure the source mutates besides the
path cache) and collecting each question's contribution in order. -/
def evaluateRun (h : Hierarchy) (max_depth : Nat) :
    List (String × GoldRecord) → SysMap → SysMap × List Contribution
  | [], so => (so, [])
  | q :: rest, so =>
    let step := evaluateStep h max_depth so q
    let tail := evaluateRun h max_depth rest step.1
    (tail.1, step.2 :: tail.2)

/-- The empty-prediction entries a run appends to the system output: one per
gold question id absent from the map at the time it is processed. -/
def missingEntries : List (String × GoldRecord) → SysMap → SysMap
  | [], _ => []
  | q :: rest, so =>
    match List.lookup q.1 so with
    | some _ => missingEntries rest so
    | none => (q.1, none) :: missingEntries rest (so ++ [(q.1, none)])

/-- `dcg`: discounted cumulative gain over the first `min(k, len)` positions,
`gains[i] / log2(i + 2)` at position `i`, on real numbers (idealised float
arithmetic). -/
noncomputable def dcg (gains : List ℝ) (k : Nat) : ℝ :=
  ∑ i ∈ Finset.range (min k gains.length), gains.getD i 0 / Real.logb 2 (i + 2)

open scoped Classical in
/-- `ndcg`: `dcg(gains, k) / dcg(ideal_gains, k)`.  Python float division
raises `ZeroDivisionError` exactly when the denominator is zero; that
failure is surfaced as `none`. -/
noncomputable def ndcg (gains ideal_gains : List ℝ) (k : Nat) : Option ℝ :=
  if dcg ideal_gains k = 0 then none
  else some (dcg gains k / dcg ideal_gains k)

/-- The real number a stored gain denotes.  `⊥` (the float `-inf` of an
infinite minimum distance) has no real counterpart and is mapped to 0; the
gain-bound lemmas below show `⊥` never occurs under the hierarchy
invariant, so no theorem depends on that choice. -/
noncomputable def gainReal : WithBot ℚ → ℝ :=
  fun g => WithBot.recBotCoe 0 (fun q : ℚ => (q : ℝ)) g

/-- The three-type hierarchy of the spec's walkthrough scenario: A at depth 1
under the root boundary, B and C at depth 2 under A. -/
def exampleH : Hierarchy :=
  [("A", ⟨"ROOT", 1⟩), ("B", ⟨"A", 2⟩), ("C", ⟨"A", 2⟩)]

/-! ### Basic facts about lookup, depths and the invariant -/

theorem mem_of_lookup_eq_some {α β : Type} [BEq α] [LawfulBEq α]
    {a : α} {b : β} : ∀ {l : List (α × β)}, List.lookup a l = some b → (a, b) ∈ l := by
  intro l
  induction l with
  | nil => intro hl; simp [List.lookup] at hl
  | cons p rest ih =>
    obtain ⟨k, v⟩ := p
    intro hl
    rw [List.lookup_cons] at hl
    by_cases hk : (a == k) = true
    · simp only [hk] at hl
      have hak : a = k := eq_of_beq hk
      have hvb : v = b := Option.some.inj hl
      subst hak
      subst hvb
      exact List.mem_cons_self _ _
    · simp only [Bool.not_eq_true] at hk
      simp only [hk] at hl
      exact List.mem_cons_of_mem _ (ih hl)

theorem hasType_of_lookup {h : Hierarchy} {t : String} {n : TypeNode}
    (hl : List.lookup t h = some n) : hasType h t = true := by
  simp [hasType, hl]

theorem lookup_of_hasType {h : Hierarchy} {t : String}
    (ht : hasType h t = true) : ∃ n, List.lookup t h = some n := by
  simpa [hasType, Option.isSome_iff_exists] using ht

theorem le_foldl_max (l : List (String × TypeNode)) (init : Nat) :
    init ≤ l.foldl (fun m p => max p.2.depth m) init := by
  induction l generalizing init with
  | nil => exact Nat.le_refl _
  | cons p rest ih =>
    exact Nat.le_trans (Nat.le_max_right p.2.depth init) (ih _)

theorem depth_le_foldl_max {l : List (String × TypeNode)} {p : String × TypeNode}
    (hp : p ∈ l) : ∀ init, p.2.depth ≤ l.foldl (fun m q => max q.2.depth m) init := by
  induction l with
  | nil => cases hp
  | cons q rest ih =>
    intro init
    rcases List.mem_cons.mp hp with hq | hmem
    · subst hq
      exact Nat.le_trans (Nat.le_max_left _ _) (le_foldl_max _ _)
    · exact ih hmem _

theorem depth_le_maxDepthOf {h : Hierarchy} {t : String} {n : TypeNode}
    (hl : List.lookup t h = some n) : n.depth ≤ maxDepthOf h :=
  depth_le_foldl_max (mem_of_lookup_eq_some hl) 0

theorem consistent_parent_some {h : Hierarchy} {t : String} {n pn : TypeNode}
    (hc : consistent h) (hl : List.lookup t h = some n)
    (hp : List.lookup n.parent h = some pn) : n.depth = pn.depth + 1 := by
  have hok := hc (t, n) (mem_of_lookup_eq_some hl)
  simp [nodeOkB, hl, hp] at hok
  exact hok

theorem consistent_parent_none {h : Hierarchy} {t : String} {n : TypeNode}
    (hc : consistent h) (hl : List.lookup t h = some n)
    (hp : List.lookup n.parent h = none) : n.depth = 1 := by
  have hok := hc (t, n) (mem_of_lookup_eq_some hl)
  simp [nodeOkB, hl, hp] at hok
  exact hok

theorem consistent_depth_pos {h : Hierarchy} {t : String} {n : TypeNode}
    (hc : consistent h) (hl : List.lookup t h = some n) : 1 ≤ n.depth := by
  cases hp : List.lookup n.parent h with
  | none => exact Nat.le_of_eq (consistent_parent_none hc hl hp).symm
  | some pn => rw [consistent_parent_some hc hl hp]; exact Nat.le_add_left 1 _

/-! ### The fueled path walk under the invariant -/

theorem getTypePathFuel_succ_none {h : Hierarchy} {t : String} {f : Nat}
    (hl : List.lookup t h = none) : getTypePathFuel h (f + 1) t = [] := by
  simp [getTypePathFuel, hl]

theorem getTypePathFuel_succ_some {h : Hierarchy} {t : String} {n : TypeNode} {f : Nat}
    (hl : List.lookup t h = some n) :
    getTypePathFuel h (f + 1) t = t :: getTypePathFuel h f n.parent := by
  simp [getTypePathFuel, hl]

theorem getTypePathFuel_none {h : Hierarchy} {t : String} {f : Nat}
    (hl : List.lookup t h = none) : getTypePathFuel h f t = [] := by
  cases f with
  | zero => rfl
  | succ f => exact getTypePathFuel_succ_none hl

theorem getTypePathFuel_stable {h : Hierarchy} (hc : consistent h) :
    ∀ d {t : String} {n : TypeNode} {f₁ f₂ : Nat}, List.lookup t h = some n →
      n.depth = d → d ≤ f₁ → d ≤ f₂ →
      getTypePathFuel h f₁ t = getTypePathFuel h f₂ t := by
  intro d
  induction d using Nat.strong_induction_on with
  | _ d ih =>
    intro t n f₁ f₂ hl hd h₁ h₂
    have hpos : 1 ≤ d := hd ▸ consistent_depth_pos hc hl
    obtain ⟨a, rfl⟩ : ∃ a, f₁ = a + 1 :=
      ⟨f₁ - 1, (Nat.succ_pred_eq_of_pos (Nat.lt_of_lt_of_le hpos h₁)).symm⟩
    obtain ⟨b, rfl⟩ : ∃ b, f₂ = b + 1 :=
      ⟨f₂ - 1, (Nat.succ_pred_eq_of_pos (Nat.lt_of_lt_of_le hpos h₂)).symm⟩
    rw [getTypePathFuel_succ_some hl, getTypePathFuel_succ_some hl]
    cases hp : List.lookup n.parent h with
    | none => rw [getTypePathFuel_none hp, getTypePathFuel_none hp]
    | some pn =>
      have hdep := consistent_parent_some hc hl hp
      have hdp : pn.depth < d := by omega
      have hda : pn.depth ≤ a := by omega
      have hdb : pn.depth ≤ b := by omega
      rw [ih pn.depth hdp hp rfl hda (Nat.le_refl _),
        ih pn.depth hdp hp rfl hdb (Nat.le_refl _)]

theorem getTypePath_eq_nil {h : Hierarchy} {t : String}
    (hl : List.lookup t h = none) : getTypePath h t = [] :=
  getTypePathFuel_succ_none hl

theorem getTypePath_eq_cons {h : Hierarchy} {t : String} {n : TypeNode}
    (hc : consistent h) (hl : List.lookup t h = some n) :
    getTypePath h t = t :: getTypePath h n.parent := by
  show getTypePathFuel h (maxDepthOf h + 1) t = t :: getTypePathFuel h (maxDepthOf h + 1) n.parent
  rw [getTypePathFuel_succ_some hl]
  cases hp : List.lookup n.parent h with
  | none => rw [getTypePathFuel_none hp, getTypePathFuel_none hp]
  | some pn =>
    have hle : pn.depth ≤ maxDepthOf h := depth_le_maxDepthOf hp
    exact congrArg (t :: ·)
      (getTypePathFuel_stable hc pn.depth hp rfl hle (Nat.le_succ_of_le hle))

theorem getTypePath_length {h : Hierarchy} (hc : consistent h) :
    ∀ d {t : String} {n : TypeNode}, List.lookup t h = some n → n.depth = d →
      (getTypePath h t).length = n.depth := by
  intro d
  induction d using Nat.strong_induction_on with
  | _ d ih =>
    intro t n hl hd
    rw [getTypePath_eq_cons hc hl]
    cases hp : List.lookup n.parent h with
    | none =>
      rw [getTypePath_eq_nil hp]
      simp [consistent_parent_none hc hl hp]
    | some pn =>
      have hdep := consistent_parent_some hc hl hp
      have hdp : pn.depth < d := by omega
      have := ih pn.depth hdp hp rfl
      simp only [List.length_cons, this]
      omega

theorem lookup_isSome_of_mem_getTypePathFuel {h : Hierarchy} {s : String} :
    ∀ {f : Nat} {t : String}, s ∈ getTypePathFuel h f t →
      ∃ m, List.lookup s h = some m := by
  intro f
  induction f with
  | zero => intro t hs; cases hs
  | succ f ih =>
    intro t hs
    cases hl : List.lookup t h with
    | none => rw [getTypePathFuel_succ_none hl] at hs; cases hs
    | some n =>
      rw [getTypePathFuel_succ_some hl] at hs
      rcases List.mem_cons.mp hs with rfl | hmem
      · exact ⟨n, hl⟩
      · exact ih hmem

theorem lookup_isSome_of_mem_getTypePath {h : Hierarchy} {s t : String}
    (hs : s ∈ getTypePath h t) : ∃ m, List.lookup s h = some m :=
  lookup_isSome_of_mem_getTypePathFuel hs

theorem mem_getTypePath_self {h : Hierarchy} {t : String} {n : TypeNode}
    (hl : List.lookup t h = some n) : t ∈ getTypePath h t := by
  show t ∈ getTypePathFuel h (maxDepthOf h + 1) t
  rw [getTypePathFuel_succ_some hl]
  exact List.mem_cons_self _ _

theorem getTypePath_head {h : Hierarchy} {t : String}
    (hne : getTypePath h t ≠ []) : ∃ rest, getTypePath h t = t :: rest := by
  cases hl : List.lookup t h with
  | none => exact absurd (getTypePath_eq_nil hl) hne
  | some n =>
    exact ⟨getTypePathFuel h (maxDepthOf h) n.parent, getTypePathFuel_succ_some hl⟩

theorem mem_parentPath_depth_lt {h : Hierarchy} (hc : consistent h) :
    ∀ d {t : String} {n : TypeNode} {s : String}, List.lookup t h = some n →
      n.depth = d → s ∈ getTypePath h n.parent →
      ∃ m, List.lookup s h = some m ∧ m.depth < n.depth := by
  intro d
  induction d using Nat.strong_induction_on with
  | _ d ih =>
    intro t n s hl hd hs
    cases hp : List.lookup n.parent h with
    | none => rw [getTypePath_eq_nil hp] at hs; cases hs
    | some pn =>
      have hdep := consistent_parent_some hc hl hp
      rw [getTypePath_eq_cons hc hp] at hs
      rcases List.mem_cons.mp hs with rfl | hmem
      · exact ⟨pn, hp, by omega⟩
      · have hdp : pn.depth < d := by omega
        obtain ⟨m, hm, hlt⟩ := ih pn.depth hdp hp rfl hmem
        exact ⟨m, hm, by omega⟩

theorem mem_getTypePath_depth_le {h : Hierarchy} (hc : consistent h)
    {t s : String} {n : TypeNode} (hl : List.lookup t h = some n)
    (hs : s ∈ getTypePath h t) :
    ∃ m, List.lookup s h = some m ∧ m.depth ≤ n.depth := by
  rw [getTypePath_eq_cons hc hl] at hs
  rcases List.mem_cons.mp hs with rfl | hmem
  · exact ⟨n, hl, Nat.le_refl _⟩
  · obtain ⟨m, hm, hlt⟩ := mem_parentPath_depth_lt hc n.depth hl rfl hmem
    exact ⟨m, hm, Nat.le_of_lt hlt⟩

theorem getTypePath_nodup {h : Hierarchy} (hc : consistent h) :
    ∀ d {t : String} {n : TypeNode}, List.lookup t h = some n → n.depth = d →
      (getTypePath h t).Nodup := by
  intro d
  induction d using Nat.strong_induction_on with
  | _ d ih =>
    intro t n hl hd
    rw [getTypePath_eq_cons hc hl]
    refine List.nodup_cons.mpr ⟨?_, ?_⟩
    · intro hmem
      obtain ⟨m, hm, hlt⟩ := mem_parentPath_depth_lt hc d hl hd hmem
      rw [hl] at hm
      have hmn : m.depth = n.depth := by rw [Option.some.inj hm]
      omega
    · cases hp : List.lookup n.parent h with
      | none => rw [getTypePath_eq_nil hp]; exact List.nodup_nil
      | some pn =>
        have hdep := consistent_parent_some hc hl hp
        exact ih pn.depth (by omega) hp rfl

theorem getTypePath_nodup' {h : Hierarchy} (hc : consistent h) (t : String) :
    (getTypePath h t).Nodup := by
  cases hl : List.lookup t h with
  | none => rw [getTypePath_eq_nil hl]; exact List.nodup_nil
  | some n => exact getTypePath_nodup hc n.depth hl rfl

theorem getTypePath_suffix {h : Hierarchy} (hc : consistent h) :
    ∀ d {t : String} {n : TypeNode} {s : String}, List.lookup t h = some n →
      n.depth = d → s ∈ getTypePath h t →
      ∃ pre, getTypePath h t = pre ++ getTypePath h s ∧ s ∉ pre := by
  intro d
  induction d using Nat.strong_induction_on with
  | _ d ih =>
    intro t n s hl hd hs
    by_cases hst : s = t
    · subst hst; exact ⟨[], by simp⟩
    · rw [getTypePath_eq_cons hc hl] at hs
      rcases List.mem_cons.mp hs with rfl | hmem
      · exact absurd rfl hst
      · cases hp : List.lookup n.parent h with
        | none => rw [getTypePath_eq_nil hp] at hmem; cases hmem
        | some pn =>
          have hdep := consistent_parent_some hc hl hp
          obtain ⟨pre, hpre, hsn⟩ := ih pn.depth (by omega) hp rfl hmem
          refine ⟨t :: pre, ?_, ?_⟩
          · rw [getTypePath_eq_cons hc hl, hpre]; rfl
          · intro hmem'
            rcases List.mem_cons.mp hmem' with heq | hmem''
            · exact hst heq
            · exact hsn hmem''

theorem getTypePath_suffix' {h : Hierarchy} (hc : consistent h) {t s : String}
    (hs : s ∈ getTypePath h t) :
    ∃ pre, getTypePath h t = pre ++ getTypePath h s ∧ s ∉ pre := by
  cases hl : List.lookup t h with
  | none => rw [getTypePath_eq_nil hl] at hs; cases hs
  | some n => exact getTypePath_suffix hc n.depth hl rfl hs

theorem indexOf_eq_pre_length {h : Hierarchy} {t s : String}
    (hs : s ∈ getTypePath h t) {pre : List String}
    (hpre : getTypePath h t = pre ++ getTypePath h s) (hsn : s ∉ pre) :
    (getTypePath h t).indexOf s = pre.length := by
  obtain ⟨m, hm⟩ := lookup_isSome_of_mem_getTypePath
    (by rw [hpre] at hs; rcases List.mem_append.mp hs with hp | hp
        · exact absurd hp hsn
        · exact hp)
  obtain ⟨rest, hrest⟩ := getTypePath_head (h := h) (t := s)
    (fun hnil => by rw [hpre, hnil] at hs; exact hsn (by simpa using hs))
  rw [hpre, List.indexOf_append_of_not_mem hsn, hrest, List.indexOf_cons_self]
  exact Nat.add_zero _

/-! ### Distance lemmas -/

theorem get_type_distance_comm (h : Hierarchy) (a b : String) :
    get_type_distance h a b = get_type_distance h b a := by
  unfold get_type_distance
  by_cases hab : a ∈ getTypePath h b <;> by_cases hba : b ∈ getTypePath h a <;>
    simp [hab, hba, min_comm]

theorem get_type_distance_self {h : Hierarchy} {t : String}
    (ht : hasType h t = true) : get_type_distance h t t = 0 := by
  obtain ⟨n, hl⟩ := lookup_of_hasType ht
  have hmem : t ∈ getTypePath h t := mem_getTypePath_self hl
  obtain ⟨rest, hrest⟩ := getTypePath_head (h := h) (t := t)
    (fun hnil => by rw [hnil] at hmem; cases hmem)
  unfold get_type_distance
  simp [hmem, hrest, List.indexOf_cons_self]

theorem eq_of_indexOf_eq_zero {α : Type} [DecidableEq α] {a b : α} {l : List α}
    (hidx : (b :: l).indexOf a = 0) : a = b := by
  by_cases hba : b = a
  · exact hba.symm
  · rw [List.indexOf_cons_ne _ hba] at hidx
    cases hidx

theorem eq_of_get_type_distance_eq_zero {h : Hierarchy} {a b : String}
    (hd : get_type_distance h a b = 0) : a = b := by
  unfold get_type_distance at hd
  by_cases hba : b ∈ getTypePath h a
  · rw [if_pos hba] at hd
    rcases min_eq_iff.mp hd with ⟨h₁, -⟩ | ⟨h₁, -⟩
    · -- the index of b in a's path is 0, so b is the head a
      have hidx : (getTypePath h a).indexOf b = 0 := by exact_mod_cast h₁
      obtain ⟨rest, hrest⟩ := getTypePath_head (h := h) (t := a)
        (fun hnil => by rw [hnil] at hba; cases hba)
      rw [hrest] at hba hidx
      exact (eq_of_indexOf_eq_zero hidx).symm
    · by_cases hab : a ∈ getTypePath h b
      · rw [if_pos hab] at h₁
        have hidx : (getTypePath h b).indexOf a = 0 := by exact_mod_cast h₁
        obtain ⟨rest, hrest⟩ := getTypePath_head (h := h) (t := b)
          (fun hnil => by rw [hnil] at hab; cases hab)
        rw [hrest] at hab hidx
        exact eq_of_indexOf_eq_zero hidx
      · rw [if_neg hab] at h₁
        cases h₁
  · rw [if_neg hba] at hd
    by_cases hab : a ∈ getTypePath h b
    · rw [if_pos hab] at hd
      have hidx : (getTypePath h b).indexOf a = 0 := by exact_mod_cast hd
      obtain ⟨rest, hrest⟩ := getTypePath_head (h := h) (t := b)
        (fun hnil => by rw [hnil] at hab; cases hab)
      rw [hrest] at hab hidx
      exact eq_of_indexOf_eq_zero hidx
    · rw [if_neg hab] at hd
      cases hd

theorem get_type_distance_eq_indexOf {h : Hierarchy} (hc : consistent h)
    {s t : String} (hs : s ∈ getTypePath h t) :
    get_type_distance h s t = ((getTypePath h t).indexOf s : Nat) := by
  by_cases hst : s = t
  · subst hst
    obtain ⟨m, hm⟩ := lookup_isSome_of_mem_getTypePath hs
    rw [get_type_distance_self (hasType_of_lookup hm)]
    obtain ⟨rest, hrest⟩ := getTypePath_head (h := h) (t := s)
      (fun hnil => by rw [hnil] at hs; cases hs)
    rw [hrest, List.indexOf_cons_self]
    rfl
  · have hts : t ∉ getTypePath h s := by
      intro hts
      obtain ⟨pre1, hp1, hn1⟩ := getTypePath_suffix' hc hs
      obtain ⟨pre2, hp2, hn2⟩ := getTypePath_suffix' hc hts
      have hlen : (getTypePath h t).length =
          pre1.length + (pre2.length + (getTypePath h t).length) := by
        conv_lhs => rw [hp1, hp2]
        simp [List.length_append]
      have hpre1 : pre1 = [] := List.eq_nil_of_length_eq_zero (by omega)
      have hpre2 : pre2 = [] := List.eq_nil_of_length_eq_zero (by omega)
      rw [hpre1, List.nil_append] at hp1
      obtain ⟨r1, hr1⟩ := getTypePath_head (h := h) (t := t)
        (fun hnil => by rw [hnil] at hs; cases hs)
      obtain ⟨r2, hr2⟩ := getTypePath_head (h := h) (t := s)
        (fun hnil => by rw [hnil] at hts; cases hts)
      rw [hr1, hr2] at hp1
      exact hst (List.head_eq_of_cons_eq hp1.symm)
    unfold get_type_distance
    simp [hs, hts]

theorem get_type_distance_lt_max {h : Hierarchy} (hc : consistent h)
    {s t : String} (hs : s ∈ getTypePath h t) :
    get_type_distance h s t < ((maxDepthOf h : Nat) : ℕ∞) := by
  rw [get_type_distance_eq_indexOf hc hs]
  cases hl : List.lookup t h with
  | none => rw [getTypePath_eq_nil hl] at hs; cases hs
  | some n =>
    have hidx : (getTypePath h t).indexOf s < (getTypePath h t).length :=
      List.indexOf_lt_length.mpr hs
    have hlen : (getTypePath h t).length = n.depth := getTypePath_length hc n.depth hl rfl
    have hle : n.depth ≤ maxDepthOf h := depth_le_maxDepthOf hl
    exact_mod_cast Nat.lt_of_lt_of_le (hlen ▸ hidx) hle

theorem mem_path_or_of_shared {h : Hierarchy} (hc : consistent h)
    {u pt g : String} (hpt : pt ∈ getTypePath h u) (hg : g ∈ getTypePath h u) :
    g ∈ getTypePath h pt ∨ pt ∈ getTypePath h g := by
  obtain ⟨pre1, hp1, hn1⟩ := getTypePath_suffix' hc hpt
  obtain ⟨pre2, hp2, hn2⟩ := getTypePath_suffix' hc hg
  have hi : (getTypePath h u).indexOf pt = pre1.length := indexOf_eq_pre_length hpt hp1 hn1
  have hj : (getTypePath h u).indexOf g = pre2.length := indexOf_eq_pre_length hg hp2 hn2
  rcases le_or_lt pre1.length pre2.length with hle | hlt
  · left
    by_cases hgp : g ∈ pre1
    · exfalso
      have : (getTypePath h u).indexOf g = pre1.indexOf g := by
        rw [hp1]; exact List.indexOf_append_of_mem hgp
      have hlt' : pre1.indexOf g < pre1.length := List.indexOf_lt_length.mpr hgp
      omega
    · rw [hp1] at hg
      rcases List.mem_append.mp hg with hcase | hcase
      · exact absurd hcase hgp
      · exact hcase
  · right
    by_cases hpp : pt ∈ pre2
    · exfalso
      have : (getTypePath h u).indexOf pt = pre2.indexOf pt := by
        rw [hp2]; exact List.indexOf_append_of_mem hpp
      have hlt' : pre2.indexOf pt < pre2.length := List.indexOf_lt_length.mpr hpp
      omega
    · rw [hp2] at hpt
      rcases List.mem_append.mp hpt with hcase | hcase
      · exact absurd hcase hpp
      · exact hcase

/-! ### Folded minima -/

theorem foldl_min_le_acc (f : String → ℕ∞) :
    ∀ (l : List String) (a : ℕ∞), l.foldl (fun m g => min (f g) m) a ≤ a := by
  intro l
  induction l with
  | nil => intro a; exact le_refl a
  | cons b rest ih =>
    intro a
    exact le_trans (ih (min (f b) a)) (min_le_right _ _)

theorem foldl_min_le_mem (f : String → ℕ∞) {g : String} :
    ∀ {l : List String}, g ∈ l → ∀ (a : ℕ∞),
      l.foldl (fun m x => min (f x) m) a ≤ f g := by
  intro l
  induction l with
  | nil => intro hg; cases hg
  | cons b rest ih =>
    intro hg a
    rcases List.mem_cons.mp hg with rfl | hmem
    · exact le_trans (foldl_min_le_acc f rest _) (min_le_left _ _)
    · exact ih hmem _

theorem foldl_min_eq_or (f : String → ℕ∞) :
    ∀ (l : List String) (a : ℕ∞),
      l.foldl (fun m g => min (f g) m) a = a ∨
        ∃ g ∈ l, l.foldl (fun m g => min (f g) m) a = f g := by
  intro l
  induction l with
  | nil => intro a; exact Or.inl rfl
  | cons b rest ih =>
    intro a
    rw [List.foldl_cons]
    rcases ih (min (f b) a) with heq | ⟨g, hg, heq⟩
    · rcases min_cases (f b) a with ⟨hmin, -⟩ | ⟨hmin, -⟩
      · exact Or.inr ⟨b, List.mem_cons_self _ _, by rw [heq, hmin]⟩
      · exact Or.inl (by rw [heq, hmin])
    · exact Or.inr ⟨g, List.mem_cons_of_mem _ hg, heq⟩

theorem minGoldDistance_le {h : Hierarchy} {gold : List String} {pt g : String}
    (hg : g ∈ gold) : minGoldDistance h gold pt ≤ get_type_distance h pt g :=
  foldl_min_le_mem _ hg _

theorem minGoldDistance_cases (h : Hierarchy) (gold : List String) (pt : String) :
    minGoldDistance h gold pt = ⊤ ∨
      ∃ g ∈ gold, minGoldDistance h gold pt = get_type_distance h pt g :=
  foldl_min_eq_or _ gold ⊤

/-! ### Membership in the expanded closure and the most-specific filter -/

theorem mem_ite_nil_pair {x : String} {c c' : Prop} [Decidable c] [Decidable c']
    {L : List String} :
    (x ∈ if c then ([] : List String) else if c' then L else []) ↔ ¬c ∧ c' ∧ x ∈ L := by
  split_ifs <;> simp [*]

theorem mem_get_expanded_types_iff {h : Hierarchy} {types : List String} {x : String} :
    x ∈ get_expanded_types h types ↔
      ∃ t ∈ types, x ∈ getTypePath h t ∨
        ∃ t2 ∈ hierarchyKeys h,
          depthOf h t < depthOf h t2 ∧ t ∈ getTypePath h t2 ∧ x ∈ getTypePath h t2 := by
  unfold get_expanded_types
  simp only [List.mem_dedup, List.mem_flatMap, List.mem_append, mem_ite_nil_pair, Nat.not_le]

theorem mem_expanded_of_mem_path {h : Hierarchy} {types : List String} {t x : String}
    (ht : t ∈ types) (hx : x ∈ getTypePath h t) : x ∈ get_expanded_types h types :=
  mem_get_expanded_types_iff.mpr ⟨t, ht, Or.inl hx⟩

theorem mem_foldl_erase {α : Type} [DecidableEq α] :
    ∀ (l : List α) {init : List α}, init.Nodup → ∀ x,
      (x ∈ l.foldl (fun f s => f.erase s) init ↔ x ∈ init ∧ x ∉ l) := by
  intro l
  induction l with
  | nil => intro init hn x; simp
  | cons s rest ih =>
    intro init hn x
    show x ∈ rest.foldl (fun f s => f.erase s) (init.erase s) ↔ _
    rw [ih (hn.erase s) x, hn.mem_erase_iff]
    simp only [List.mem_cons]
    constructor
    · rintro ⟨⟨hxs, hxi⟩, hxr⟩
      exact ⟨hxi, fun hmem => hmem.elim hxs hxr⟩
    · rintro ⟨hxi, hmem⟩
      exact ⟨⟨fun heq => hmem (Or.inl heq), hxi⟩, fun hr => hmem (Or.inr hr)⟩

theorem foldl_foldl_erase {α β : Type} [DecidableEq α] (g : β → List α) :
    ∀ (l : List β) (init : List α),
      l.foldl (fun f t => (g t).foldl (fun f2 s => f2.erase s) f) init =
        (l.flatMap g).foldl (fun f s => f.erase s) init := by
  intro l
  induction l with
  | nil => intro init; rfl
  | cons b rest ih =>
    intro init
    show rest.foldl _ ((g b).foldl _ init) = _
    rw [ih, List.flatMap_cons, List.foldl_append]

theorem mem_get_most_specific_iff {h : Hierarchy} {types : List String} {x : String} :
    x ∈ get_most_specific_types h types ↔
      x ∈ types ∧ ∀ t ∈ types, x ∉ (getTypePath h t).drop 1 := by
  unfold get_most_specific_types
  rw [foldl_foldl_erase, mem_foldl_erase _ (List.nodup_dedup types) x, List.mem_dedup]
  simp only [List.mem_flatMap, not_exists, not_and]

/-! ### Gain values -/

theorem gainOfDistance_spec {md : Nat} {d : ℕ∞} (hd : d < (md : ℕ∞)) :
    ∃ q : ℚ, gainOfDistance md d = (q : WithBot ℚ) ∧ 0 < q ∧ q ≤ 1 ∧ (q = 1 ↔ d = 0) := by
  have hdt : d ≠ ⊤ := ne_top_of_lt hd
  lift d to Nat using hdt with dn
  have hdnm : dn < md := ENat.coe_lt_coe.mp hd
  have hmd0 : 0 < md := by omega
  have hmdQ : (0 : ℚ) < (md : ℚ) := by exact_mod_cast hmd0
  refine ⟨1 - (dn : ℚ) / (md : ℚ), ?_, ?_, ?_, ?_⟩
  · unfold gainOfDistance
    rw [if_neg (ENat.coe_ne_top dn)]
    norm_num [ENat.toNat_coe]
  · have : (dn : ℚ) / (md : ℚ) < 1 := by
      rw [div_lt_one hmdQ]
      exact_mod_cast hdnm
    linarith
  · have : (0 : ℚ) ≤ (dn : ℚ) / (md : ℚ) :=
      div_nonneg (by positivity) (le_of_lt hmdQ)
    linarith
  · rw [sub_eq_self, div_eq_zero_iff]
    constructor
    · rintro (hdn | hmd)
      · have hz : dn = 0 := Nat.cast_eq_zero.mp hdn
        simp [hz]
      · exact absurd hmd (by positivity)
    · intro hd0
      left
      have hz : dn = 0 := by exact_mod_cast hd0
      simp [hz]

theorem minGoldDistance_lt_max {h : Hierarchy} (hc : consistent h) {gold : List String}
    {pt : String} (hmem : pt ∈ get_expanded_types h gold) :
    minGoldDistance h gold pt < ((maxDepthOf h : Nat) : ℕ∞) := by
  obtain ⟨t, ht, hcase⟩ := mem_get_expanded_types_iff.mp hmem
  have hdist : get_type_distance h pt t < ((maxDepthOf h : Nat) : ℕ∞) := by
    rcases hcase with hp | ⟨t2, ht2k, hdlt, htp, hptp⟩
    · exact get_type_distance_lt_max hc hp
    · rcases mem_path_or_of_shared hc hptp htp with h1 | h2
      · rw [get_type_distance_comm]
        exact get_type_distance_lt_max hc h1
      · exact get_type_distance_lt_max hc h2
  exact lt_of_le_of_lt (minGoldDistance_le ht) hdist

theorem compute_type_gains_eq_map (h : Hierarchy) (md : Nat)
    (preds : List (Option String)) (gold : List String) :
    compute_type_gains h md preds gold =
      preds.map (fun p =>
        match p with
        | none => 0
        | some pt =>
          if pt ∈ get_expanded_types h gold then
            gainOfDistance md (minGoldDistance h gold pt)
          else 0) := rfl

theorem gain_elem_bounds {h : Hierarchy} (hc : consistent h)
    (preds : List (Option String)) (gold : List String) :
    ∀ x ∈ compute_type_gains h (maxDepthOf h) preds gold,
      0 ≤ x ∧ x ≤ (1 : WithBot ℚ) := by
  intro x hx
  rw [compute_type_gains_eq_map] at hx
  obtain ⟨p, hp, rfl⟩ := List.mem_map.mp hx
  cases p with
  | none =>
    refine ⟨le_refl _, ?_⟩
    show (0 : WithBot ℚ) ≤ (1 : WithBot ℚ)
    exact_mod_cast (zero_le_one : (0 : ℚ) ≤ 1)
  | some pt =>
    show 0 ≤ (if pt ∈ get_expanded_types h gold then _ else 0) ∧ _
    by_cases hmem : pt ∈ get_expanded_types h gold
    · simp only [if_pos hmem]
      obtain ⟨q, hq, hq0, hq1, -⟩ := gainOfDistance_spec (minGoldDistance_lt_max hc hmem)
      rw [hq]
      exact ⟨by exact_mod_cast le_of_lt hq0, by exact_mod_cast hq1⟩
    · simp only [if_neg hmem]
      refine ⟨le_refl _, ?_⟩
      show (0 : WithBot ℚ) ≤ (1 : WithBot ℚ)
      exact_mod_cast (zero_le_one : (0 : ℚ) ≤ 1)

theorem gain_elem_eq_one_iff {h : Hierarchy} (hc : consistent h) {gold : List String}
    (hgold : ∀ g ∈ gold, hasType h g = true) (pt : String) :
    ((if pt ∈ get_expanded_types h gold then
        gainOfDistance (maxDepthOf h) (minGoldDistance h gold pt)
      else 0) = (1 : WithBot ℚ)) ↔ pt ∈ gold := by
  constructor
  · intro h1
    by_cases hmem : pt ∈ get_expanded_types h gold
    · rw [if_pos hmem] at h1
      obtain ⟨q, hq, -, -, hq1iff⟩ := gainOfDistance_spec (minGoldDistance_lt_max hc hmem)
      rw [hq] at h1
      have hq1 : q = 1 := by exact_mod_cast h1
      have hd0 : minGoldDistance h gold pt = 0 := hq1iff.mp hq1
      rcases minGoldDistance_cases h gold pt with htop | ⟨g, hg, heq⟩
      · rw [htop] at hd0
        exact absurd hd0 (by simp)
      · rw [heq] at hd0
        rw [eq_of_get_type_distance_eq_zero hd0]
        exact hg
    · rw [if_neg hmem] at h1
      exact absurd h1 (by exact_mod_cast (zero_ne_one : (0 : ℚ) ≠ 1))
  · intro hmem
    have hpt : hasType h pt = true := hgold pt hmem
    obtain ⟨n, hn⟩ := lookup_of_hasType hpt
    have hexp : pt ∈ get_expanded_types h gold :=
      mem_expanded_of_mem_path hmem (mem_getTypePath_self hn)
    rw [if_pos hexp]
    have hle : minGoldDistance h gold pt ≤ 0 := by
      have hd : minGoldDistance h gold pt ≤ get_type_distance h pt pt := minGoldDistance_le hmem
      rw [get_type_distance_self hpt] at hd
      exact hd
    have h0 : minGoldDistance h gold pt = 0 := le_antisymm hle (zero_le _)
    rw [h0]
    unfold gainOfDistance
    rw [if_neg (by simp)]
    norm_num

theorem getD_map_of_lt {α β : Type} (f : α → β) {l : List α} {i : Nat}
    (hi : i < l.length) (d : β) (d' : α) : (l.map f).getD i d = f (l.getD i d') := by
  rw [List.getD_eq_getElem?_getD, List.getElem?_map, List.getD_eq_getElem?_getD,
    List.getElem?_eq_getElem hi]
  rfl

theorem gain_of_mem_gold {h : Hierarchy} {gold : List String} {pt : String} (md : Nat)
    (hmem : pt ∈ gold) (hpt : hasType h pt = true) :
    (if pt ∈ get_expanded_types h gold then
        gainOfDistance md (minGoldDistance h gold pt)
      else 0) = (1 : WithBot ℚ) := by
  obtain ⟨n, hn⟩ := lookup_of_hasType hpt
  have hexp : pt ∈ get_expanded_types h gold :=
    mem_expanded_of_mem_path hmem (mem_getTypePath_self hn)
  rw [if_pos hexp]
  have hle : minGoldDistance h gold pt ≤ 0 := by
    have hd : minGoldDistance h gold pt ≤ get_type_distance h pt pt := minGoldDistance_le hmem
    rw [get_type_distance_self hpt] at hd
    exact hd
  have h0 : minGoldDistance h gold pt = 0 := le_antisymm hle (zero_le _)
  rw [h0]
  unfold gainOfDistance
  rw [if_neg (by simp)]
  norm_num

/-! ### The real-valued metric layer -/

theorem getD_nonneg {l : List ℝ} (hnn : ∀ x ∈ l, 0 ≤ x) (i : Nat) : 0 ≤ l.getD i 0 := by
  rw [List.getD_eq_getElem?_getD]
  cases hx : l[i]? with
  | none => simp
  | some x =>
    simp only [Option.getD_some]
    exact hnn x (List.getElem?_mem hx)

theorem logb_two_pos (i : Nat) : 0 < Real.logb 2 ((i : ℝ) + 2) := by
  refine Real.logb_pos one_lt_two ?_
  have : (0 : ℝ) ≤ (i : ℝ) := Nat.cast_nonneg i
  linarith

theorem one_le_dcg {l : List ℝ} {k : Nat} (hk : 1 ≤ k) (hne : l ≠ [])
    (hfirst : l.getD 0 0 = 1) (hnn : ∀ x ∈ l, 0 ≤ x) : 1 ≤ dcg l k := by
  unfold dcg
  have hlen : 0 < l.length := List.length_pos.mpr hne
  have hmin : 0 < min k l.length := lt_min hk hlen
  have h0mem : (0 : Nat) ∈ Finset.range (min k l.length) := Finset.mem_range.mpr hmin
  have hterm : ∀ i ∈ Finset.range (min k l.length),
      0 ≤ l.getD i 0 / Real.logb 2 ((i : ℝ) + 2) :=
    fun i _ => div_nonneg (getD_nonneg hnn i) (le_of_lt (logb_two_pos i))
  have hsum := Finset.single_le_sum hterm h0mem
  have hval : l.getD 0 0 / Real.logb 2 (((0 : Nat) : ℝ) + 2) = 1 := by
    rw [hfirst]
    norm_num [Real.logb_self_eq_one one_lt_two]
  rw [hval] at hsum
  exact hsum

theorem dcg_pos {l : List ℝ} {k : Nat} (hk : 1 ≤ k) (hne : l ≠ [])
    (hfirst : l.getD 0 0 = 1) (hnn : ∀ x ∈ l, 0 ≤ x) : 0 < dcg l k :=
  lt_of_lt_of_le one_pos (one_le_dcg hk hne hfirst hnn)

/-! ### Sorted gain sequences -/

theorem sortGainsDesc_perm (l : List (WithBot ℚ)) : List.Perm (sortGainsDesc l) l :=
  List.perm_insertionSort _ _

theorem sortGainsDesc_sorted (l : List (WithBot ℚ)) :
    (sortGainsDesc l).Sorted (· ≥ ·) :=
  List.sorted_insertionSort _ _

theorem sorted_desc_head_eq_one {l : List (WithBot ℚ)} (hs : l.Sorted (· ≥ ·))
    (hmem : (1 : WithBot ℚ) ∈ l) (hle : ∀ x ∈ l, x ≤ 1) :
    ∃ rest, l = 1 :: rest := by
  cases l with
  | nil => cases hmem
  | cons a rest =>
    refine ⟨rest, ?_⟩
    rcases List.mem_cons.mp hmem with ha | hr
    · rw [← ha]
    · have h1a : (1 : WithBot ℚ) ≤ a := (List.sorted_cons.mp hs).1 1 hr
      have ha1 : a ≤ 1 := hle a (List.mem_cons_self _ _)
      rw [le_antisymm ha1 h1a]

theorem one_mem_ideal_gains {h : Hierarchy} {gold : List String} (md : Nat)
    (hne : gold ≠ []) (hgold : ∀ g ∈ gold, hasType h g = true) :
    (1 : WithBot ℚ) ∈ ideal_gains_of h md gold := by
  obtain ⟨g0, hg0⟩ := List.exists_mem_of_ne_nil gold hne
  obtain ⟨n, hn⟩ := lookup_of_hasType (hgold g0 hg0)
  have hexp : g0 ∈ get_expanded_types h gold :=
    mem_expanded_of_mem_path hg0 (mem_getTypePath_self hn)
  have hmm : some g0 ∈ (get_expanded_types h gold).map some :=
    List.mem_map_of_mem some hexp
  have hval : (1 : WithBot ℚ) ∈
      compute_type_gains h md ((get_expanded_types h gold).map some) gold := by
    rw [compute_type_gains_eq_map]
    refine List.mem_map.mpr ⟨some g0, hmm, ?_⟩
    exact gain_of_mem_gold md hg0 (hgold g0 hg0)
  exact ((sortGainsDesc_perm _).mem_iff).mpr hval

theorem ideal_gains_bounds {h : Hierarchy} (hc : consistent h) (gold : List String) :
    ∀ x ∈ ideal_gains_of h (maxDepthOf h) gold, 0 ≤ x ∧ x ≤ (1 : WithBot ℚ) := by
  intro x hx
  exact gain_elem_bounds hc _ gold x (((sortGainsDesc_perm _).mem_iff).mp hx)

theorem ideal_gains_head {h : Hierarchy} (hc : consistent h) {gold : List String}
    (hne : gold ≠ []) (hgold : ∀ g ∈ gold, hasType h g = true) :
    ∃ rest, ideal_gains_of h (maxDepthOf h) gold = 1 :: rest :=
  sorted_desc_head_eq_one (sortGainsDesc_sorted _)
    (one_mem_ideal_gains _ hne hgold)
    (fun x hx => (ideal_gains_bounds hc gold x hx).2)

theorem gainReal_one : gainReal (1 : WithBot ℚ) = 1 := by
  show ((1 : ℚ) : ℝ) = 1
  norm_num

theorem gainReal_nonneg {x : WithBot ℚ} (hx : 0 ≤ x) : 0 ≤ gainReal x := by
  cases x with
  | bot => exact le_refl 0
  | coe q =>
    have hq : (0 : ℚ) ≤ q := by exact_mod_cast hx
    show (0 : ℝ) ≤ (q : ℝ)
    exact_mod_cast hq

/-! ### Parent hops and path positions -/

theorem ancestorAt_path_decomp {h : Hierarchy} (hc : consistent h) :
    ∀ (k : Nat) {t : String}, (∀ i, i ≤ k → hasType h (ancestorAt h i t) = true) →
      getTypePath h t =
        ((List.range k).map (fun i => ancestorAt h i t)) ++
          getTypePath h (ancestorAt h k t) := by
  intro k
  induction k with
  | zero => intro t hchain; simp [ancestorAt]
  | succ k ih =>
    intro t hchain
    have hk := ih (fun i hi => hchain i (Nat.le_succ_of_le hi))
    obtain ⟨n, hn⟩ := lookup_of_hasType (hchain k (Nat.le_succ k))
    have hpar : ancestorAt h (k + 1) t = n.parent := by
      show parentOf h (ancestorAt h k t) = n.parent
      unfold parentOf
      rw [hn]
    rw [hk, getTypePath_eq_cons hc hn, List.range_succ, List.map_append, hpar]
    simp

theorem ancestorAt_mem_path {h : Hierarchy} (hc : consistent h) {k : Nat} {t : String}
    (hchain : ∀ i, i ≤ k → hasType h (ancestorAt h i t) = true) :
    ancestorAt h k t ∈ getTypePath h t := by
  rw [ancestorAt_path_decomp hc k hchain]
  obtain ⟨n, hn⟩ := lookup_of_hasType (hchain k (le_refl k))
  exact List.mem_append_right _ (mem_getTypePath_self hn)

theorem indexOf_ancestorAt {h : Hierarchy} (hc : consistent h) {k : Nat} {t : String}
    (hchain : ∀ i, i ≤ k → hasType h (ancestorAt h i t) = true) :
    (getTypePath h t).indexOf (ancestorAt h k t) = k := by
  have hdecomp := ancestorAt_path_decomp hc k hchain
  obtain ⟨n, hn⟩ := lookup_of_hasType (hchain k (le_refl k))
  have hself : ancestorAt h k t ∈ getTypePath h (ancestorAt h k t) :=
    mem_getTypePath_self hn
  have hnodup : (getTypePath h t).Nodup := getTypePath_nodup' hc t
  rw [hdecomp] at hnodup
  have hdisj := List.disjoint_of_nodup_append hnodup
  have hnotpre : ancestorAt h k t ∉ (List.range k).map (fun i => ancestorAt h i t) :=
    fun hmem => hdisj hmem hself
  rw [hdecomp, List.indexOf_append_of_not_mem hnotpre]
  obtain ⟨rest, hrest⟩ := getTypePath_head (h := h) (t := ancestorAt h k t)
    (fun hnil => by rw [hnil] at hself; cases hself)
  rw [hrest, List.indexOf_cons_self]
  simp

theorem get_type_distance_ancestorAt {h : Hierarchy} (hc : consistent h) {k : Nat}
    {t : String} (hchain : ∀ i, i ≤ k → hasType h (ancestorAt h i t) = true) :
    get_type_distance h (ancestorAt h k t) t = (k : Nat) := by
  rw [get_type_distance_eq_indexOf hc (ancestorAt_mem_path hc hchain),
    indexOf_ancestorAt hc hchain]

/-! ### A deepest element survives the most-specific filter -/

theorem exists_max_depthOf (h : Hierarchy) :
    ∀ {types : List String}, types ≠ [] →
      ∃ x ∈ types, ∀ y ∈ types, depthOf h y ≤ depthOf h x := by
  intro types
  induction types with
  | nil => intro hne; exact absurd rfl hne
  | cons a rest ih =>
    intro _
    by_cases hr : rest = []
    · subst hr
      refine ⟨a, List.mem_cons_self _ _, ?_⟩
      intro y hy
      rcases List.mem_cons.mp hy with rfl | hy'
      · exact le_refl _
      · cases hy'
    · obtain ⟨x, hx, hmax⟩ := ih hr
      rcases le_total (depthOf h x) (depthOf h a) with hle | hle
      · refine ⟨a, List.mem_cons_self _ _, ?_⟩
        intro y hy
        rcases List.mem_cons.mp hy with rfl | hy'
        · exact le_refl _
        · exact le_trans (hmax y hy') hle
      · refine ⟨x, List.mem_cons_of_mem _ hx, ?_⟩
        intro y hy
        rcases List.mem_cons.mp hy with rfl | hy'
        · exact hle
        · exact hmax y hy'

theorem get_most_specific_ne_nil {h : Hierarchy} (hc : consistent h)
    {types : List String} (hne : types ≠ [])
    (hm : ∀ t ∈ types, hasType h t = true) :
    get_most_specific_types h types ≠ [] := by
  obtain ⟨x, hx, hmax⟩ := exists_max_depthOf h hne
  have hxin : x ∈ get_most_specific_types h types := by
    rw [mem_get_most_specific_iff]
    refine ⟨hx, fun t ht hdrop => ?_⟩
    obtain ⟨n, hn⟩ := lookup_of_hasType (hm t ht)
    rw [getTypePath_eq_cons hc hn] at hdrop
    simp only [List.drop_succ_cons, List.drop_zero] at hdrop
    obtain ⟨m, hm', hlt⟩ := mem_parentPath_depth_lt hc n.depth hn rfl hdrop
    have h1 : depthOf h x = m.depth := by unfold depthOf; rw [hm']
    have h2 : depthOf h t = n.depth := by unfold depthOf; rw [hn]
    have h3 := hmax t ht
    omega
  exact List.ne_nil_of_mem hxin

/-! ### The evaluation loop and the threaded system-output map -/

theorem lookup_append_none {α β : Type} [BEq α] {a : α} :
    ∀ {l₁ l₂ : List (α × β)}, List.lookup a (l₁ ++ l₂) = none →
      List.lookup a l₁ = none := by
  intro l₁
  induction l₁ with
  | nil => intro l₂ _; rfl
  | cons p rest ih =>
    intro l₂ hl
    obtain ⟨k, v⟩ := p
    rw [List.cons_append, List.lookup_cons] at hl
    rw [List.lookup_cons]
    cases hk : a == k with
    | true => rw [hk] at hl; cases hl
    | false =>
      rw [hk] at hl
      simpa using ih hl

theorem missingEntries_cons (q : String × GoldRecord) (rest : List (String × GoldRecord))
    (so : SysMap) :
    missingEntries (q :: rest) so =
      match List.lookup q.1 so with
      | some _ => missingEntries rest so
      | none => (q.1, none) :: missingEntries rest (so ++ [(q.1, none)]) := rfl

theorem missingEntries_cons_some {q : String × GoldRecord} {rest : List (String × GoldRecord)}
    {so : SysMap} {entry : Option SysRecord} (hl : List.lookup q.1 so = some entry) :
    missingEntries (q :: rest) so = missingEntries rest so := by
  rw [missingEntries_cons, hl]

theorem missingEntries_cons_none {q : String × GoldRecord} {rest : List (String × GoldRecord)}
    {so : SysMap} (hl : List.lookup q.1 so = none) :
    missingEntries (q :: rest) so =
      (q.1, none) :: missingEntries rest (so ++ [(q.1, none)]) := by
  rw [missingEntries_cons, hl]

theorem evaluateStep_some {h : Hierarchy} {md : Nat} {so : SysMap}
    {q : String × GoldRecord} {entry : Option SysRecord}
    (hl : List.lookup q.1 so = some entry) :
    evaluateStep h md so q = (so, evaluateQuestion h md q.2 entry) := by
  unfold evaluateStep
  rw [hl]

theorem evaluateStep_none {h : Hierarchy} {md : Nat} {so : SysMap}
    {q : String × GoldRecord} (hl : List.lookup q.1 so = none) :
    evaluateStep h md so q = (so ++ [(q.1, none)], evaluateQuestion h md q.2 none) := by
  unfold evaluateStep
  rw [hl]

theorem evaluateRun_sysMap (h : Hierarchy) (md : Nat) :
    ∀ (gt : List (String × GoldRecord)) (so : SysMap),
      (evaluateRun h md gt so).1 = so ++ missingEntries gt so ∧
        ∀ p ∈ missingEntries gt so,
          p.2 = none ∧ List.lookup p.1 so = none ∧ p.1 ∈ gt.map Prod.fst := by
  intro gt
  induction gt with
  | nil =>
    intro so
    exact ⟨by simp [evaluateRun, missingEntries], by simp [missingEntries]⟩
  | cons q rest ih =>
    intro so
    cases hl : List.lookup q.1 so with
    | some entry =>
      obtain ⟨ihrun, ihmem⟩ := ih so
      constructor
      · show (evaluateRun h md rest (evaluateStep h md so q).1).1 = _
        rw [evaluateStep_some hl, missingEntries_cons_some hl]
        exact ihrun
      · rw [missingEntries_cons_some hl]
        intro p hp
        obtain ⟨h1, h2, h3⟩ := ihmem p hp
        exact ⟨h1, h2, List.mem_cons_of_mem _ h3⟩
    | none =>
      obtain ⟨ihrun, ihmem⟩ := ih (so ++ [(q.1, none)])
      constructor
      · show (evaluateRun h md rest (evaluateStep h md so q).1).1 = _
        rw [evaluateStep_none hl, missingEntries_cons_none hl]
        rw [show (so ++ [(q.1, none)], evaluateQuestion h md q.2 none).1 =
            so ++ [(q.1, none)] from rfl] at *
        rw [ihrun]
        simp
      · rw [missingEntries_cons_none hl]
        intro p hp
        rcases List.mem_cons.mp hp with rfl | hp'
        · exact ⟨rfl, hl, List.mem_cons_self _ _⟩
        · obtain ⟨h1, h2, h3⟩ := ihmem p hp'
          exact ⟨h1, lookup_append_none h2, List.mem_cons_of_mem _ h3⟩

theorem evaluateQuestion_missing (h : Hierarchy) (md : Nat) (gold : GoldRecord) :
    evaluateQuestion h md gold none = Contribution.mismatch := by
  unfold evaluateQuestion
  rw [if_pos]
  simp

theorem evaluateQuestion_resource {h : Hierarchy} {md : Nat} {gold : GoldRecord}
    {r : SysRecord} (hcat : gold.category = "resource")
    (hmatch : r.category = gold.category) :
    evaluateQuestion h md gold (some r) =
      if gold.type = [] then Contribution.skipped
      else
        Contribution.scored
          (compute_type_gains h md (r.type.map some)
            (get_most_specific_types h gold.type))
          (ideal_gains_of h md (get_most_specific_types h gold.type)) := by
  unfold evaluateQuestion
  simp [hmatch, hcat]

/-! ### The claims -/

/-- Claim C1: for every depth-consistent hierarchy with `max_depth` its maximum
depth, every ranked list of predicted type names and every gold type set whose
members are present in the hierarchy, each value `compute_type_gains` returns
lies in the interval from 0 to 1, and a gain equals exactly 1 if and only if
the corresponding predicted type is a member of the gold set. -/
theorem claim_C1 (h : Hierarchy) (md : Nat) (predicted gold : List String)
    (hc : consistent h) (hmd : md = maxDepthOf h)
    (hgold : ∀ g ∈ gold, hasType h g = true) :
    (∀ x ∈ compute_type_gains h md (predicted.map some) gold,
        0 ≤ x ∧ x ≤ (1 : WithBot ℚ)) ∧
      (∀ i, i < predicted.length →
        ((compute_type_gains h md (predicted.map some) gold).getD i 0 = (1 : WithBot ℚ) ↔
          predicted.getD i "" ∈ gold)) := by
  subst hmd
  constructor
  · exact gain_elem_bounds hc _ gold
  · intro i hi
    have hlen : i < (predicted.map some).length := by simpa using hi
    rw [compute_type_gains_eq_map,
      getD_map_of_lt _ hlen (0 : WithBot ℚ) (some (predicted.getD i "")),
      getD_map_of_lt some hi (some (predicted.getD i "")) ""]
    exact gain_elem_eq_one_iff hc hgold (predicted.getD i "")

/-- Claim C1, witnessed on the walkthrough hierarchy with prediction
`[B, X]` against gold `[A]`. -/
theorem claim_C1_witness :
    consistent exampleH ∧ (2 : Nat) = maxDepthOf exampleH ∧
      (∀ g ∈ ["A"], hasType exampleH g = true) ∧
      ((∀ x ∈ compute_type_gains exampleH 2 (["B", "X"].map some) ["A"],
          0 ≤ x ∧ x ≤ (1 : WithBot ℚ)) ∧
        (∀ i, i < (["B", "X"] : List String).length →
          ((compute_type_gains exampleH 2 (["B", "X"].map some) ["A"]).getD i 0
              = (1 : WithBot ℚ) ↔
            (["B", "X"] : List String).getD i "" ∈ ["A"]))) :=
  ⟨by decide, by decide, by decide,
    claim_C1 exampleH 2 ["B", "X"] ["A"] (by decide) (by decide) (by decide)⟩

/-- Claim C2: on the walkthrough hierarchy (A at depth 1, B and C at depth 2
under A) with maximum depth 2, gold `[A]` and prediction `[A, B, C]`, the
gains are `[1, 1/2, 1/2]`, the ideal gains of the expanded closure of `[A]`
sorted descending are `[1, 1/2, 1/2]`, and the NDCG of the two sequences at
k = 5 is exactly 1. -/
theorem claim_C2 :
    compute_type_gains exampleH 2 (["A", "B", "C"].map some) ["A"]
        = [1, (((1 : ℚ)/2 : ℚ) : WithBot ℚ), (((1 : ℚ)/2 : ℚ) : WithBot ℚ)] ∧
      ideal_gains_of exampleH 2 ["A"]
        = [1, (((1 : ℚ)/2 : ℚ) : WithBot ℚ), (((1 : ℚ)/2 : ℚ) : WithBot ℚ)] ∧
      ndcg
        ([1, (((1 : ℚ)/2 : ℚ) : WithBot ℚ), (((1 : ℚ)/2 : ℚ) : WithBot ℚ)].map gainReal)
        ([1, (((1 : ℚ)/2 : ℚ) : WithBot ℚ), (((1 : ℚ)/2 : ℚ) : WithBot ℚ)].map gainReal)
        5 = some 1 := by
  refine ⟨by with_unfolding_all decide, by with_unfolding_all decide, ?_⟩
  have hmap : ([1, (((1 : ℚ)/2 : ℚ) : WithBot ℚ), (((1 : ℚ)/2 : ℚ) : WithBot ℚ)].map gainReal)
      = [(1 : ℝ), 1/2, 1/2] := by
    show [gainReal 1, gainReal (((1 : ℚ)/2 : ℚ) : WithBot ℚ),
      gainReal (((1 : ℚ)/2 : ℚ) : WithBot ℚ)] = [(1 : ℝ), 1/2, 1/2]
    rw [gainReal_one]
    show [(1 : ℝ), (((1 : ℚ)/2 : ℚ) : ℝ), (((1 : ℚ)/2 : ℚ) : ℝ)] = [(1 : ℝ), 1/2, 1/2]
    norm_num
  rw [hmap]
  have hfirst : ([(1 : ℝ), 1/2, 1/2]).getD 0 0 = 1 := rfl
  have hnn : ∀ x ∈ [(1 : ℝ), 1/2, 1/2], 0 ≤ x := by
    intro x hx
    rcases List.mem_cons.mp hx with rfl | hx'
    · norm_num
    · rcases List.mem_cons.mp hx' with rfl | hx''
      · norm_num
      · rcases List.mem_cons.mp hx'' with rfl | hx'''
        · norm_num
        · cases hx'''
  have hpos : 0 < dcg [(1 : ℝ), 1/2, 1/2] 5 :=
    dcg_pos (by norm_num) (by simp) hfirst hnn
  unfold ndcg
  rw [if_neg (ne_of_gt hpos)]
  rw [div_self (ne_of_gt hpos)]

/-- Claim C3: in the resource branch, for a non-empty gold set whose members
are in a depth-consistent hierarchy with `max_depth` its maximum depth, the
ideal gain sequence has strictly positive DCG at every k of at least 1, so
`ndcg` never hits its division-by-zero failure there. -/
theorem claim_C3 (h : Hierarchy) (md k : Nat) (gold : List String)
    (hc : consistent h) (hmd : md = maxDepthOf h) (hne : gold ≠ [])
    (hgold : ∀ g ∈ gold, hasType h g = true) (hk : 1 ≤ k) :
    0 < dcg ((ideal_gains_of h md gold).map gainReal) k ∧
      ∀ gains : List ℝ, ndcg gains ((ideal_gains_of h md gold).map gainReal) k ≠ none := by
  subst hmd
  obtain ⟨rest, hrest⟩ := ideal_gains_head hc hne hgold
  have hmap : (ideal_gains_of h (maxDepthOf h) gold).map gainReal
      = 1 :: rest.map gainReal := by
    rw [hrest, List.map_cons, gainReal_one]
  have hne' : (ideal_gains_of h (maxDepthOf h) gold).map gainReal ≠ [] := by
    rw [hmap]; simp
  have hfirst : ((ideal_gains_of h (maxDepthOf h) gold).map gainReal).getD 0 0 = 1 := by
    rw [hmap]; rfl
  have hnn : ∀ x ∈ (ideal_gains_of h (maxDepthOf h) gold).map gainReal, 0 ≤ x := by
    intro x hx
    obtain ⟨g, hg, rfl⟩ := List.mem_map.mp hx
    exact gainReal_nonneg (ideal_gains_bounds hc gold g hg).1
  have hpos := dcg_pos hk hne' hfirst hnn
  refine ⟨hpos, fun gains => ?_⟩
  unfold ndcg
  rw [if_neg (ne_of_gt hpos)]
  simp

/-- Claim C3, witnessed on the walkthrough hierarchy with gold `[A]` at
k = 5. -/
theorem claim_C3_witness :
    consistent exampleH ∧ (2 : Nat) = maxDepthOf exampleH ∧
      (["A"] : List String) ≠ [] ∧ (∀ g ∈ ["A"], hasType exampleH g = true) ∧
      (1 : Nat) ≤ 5 ∧
      (0 < dcg ((ideal_gains_of exampleH 2 ["A"]).map gainReal) 5 ∧
        ∀ gains : List ℝ,
          ndcg gains ((ideal_gains_of exampleH 2 ["A"]).map gainReal) 5 ≠ none) :=
  ⟨by decide, by decide, by decide, by decide, by decide,
    claim_C3 exampleH 2 5 ["A"] (by decide) (by decide) (by decide) (by decide) (by decide)⟩

/-- Claim C4: distance of a type to itself is 0; and for an ancestor reached
by k parent hops whose whole hop chain stays inside the hierarchy, the
distance from the ancestor to the type and from the type to the ancestor both
equal k (the function is symmetric on ancestor-descendant pairs). -/
theorem claim_C4 (h : Hierarchy) (t t2 : String) (k : Nat)
    (hc : consistent h) (ht : hasType h t = true)
    (hchain : ∀ i, i ≤ k → hasType h (ancestorAt h i t2) = true) :
    get_type_distance h t t = 0 ∧
      get_type_distance h (ancestorAt h k t2) t2 = (k : Nat) ∧
      get_type_distance h t2 (ancestorAt h k t2) = (k : Nat) := by
  refine ⟨get_type_distance_self ht, get_type_distance_ancestorAt hc hchain, ?_⟩
  rw [get_type_distance_comm]
  exact get_type_distance_ancestorAt hc hchain

/-- Claim C4, witnessed on the walkthrough hierarchy: C to itself, and the
one-hop pair B/A. -/
theorem claim_C4_witness :
    consistent exampleH ∧ hasType exampleH "C" = true ∧
      (∀ i, i ≤ 1 → hasType exampleH (ancestorAt exampleH i "B") = true) ∧
      (get_type_distance exampleH "C" "C" = 0 ∧
        get_type_distance exampleH (ancestorAt exampleH 1 "B") "B" = (1 : Nat) ∧
        get_type_distance exampleH "B" (ancestorAt exampleH 1 "B") = (1 : Nat)) :=
  ⟨by decide, by decide, by decide,
    claim_C4 exampleH "C" "B" 1 (by decide) (by decide) (by decide)⟩

/-- Claim C5: the most-specific filter returns a subset of its input in which
no element is a strict ancestor (a proper member of another element's
ancestor path) of another element. -/
theorem claim_C5 (h : Hierarchy) (types : List String) :
    (∀ x ∈ get_most_specific_types h types, x ∈ types) ∧
      (∀ x ∈ get_most_specific_types h types, ∀ y ∈ get_most_specific_types h types,
        x ≠ y → x ∉ getTypePath h y) := by
  constructor
  · intro x hx
    exact (mem_get_most_specific_iff.mp hx).1
  · intro x hx y hy hxy hmem
    obtain ⟨hxT, hxdrop⟩ := mem_get_most_specific_iff.mp hx
    obtain ⟨hyT, -⟩ := mem_get_most_specific_iff.mp hy
    obtain ⟨rest, hrest⟩ := getTypePath_head (h := h) (t := y)
      (fun hnil => by rw [hnil] at hmem; cases hmem)
    rw [hrest] at hmem
    rcases List.mem_cons.mp hmem with rfl | hr
    · exact hxy rfl
    · refine hxdrop y hyT ?_
      rw [hrest]
      simpa using hr

/-- Claim C6: the expanded closure of a type set contains each member itself
and every ancestor of each member up to the root boundary. -/
theorem claim_C6 (h : Hierarchy) (types : List String) (t : String)
    (ht : t ∈ types) (hl : hasType h t = true) :
    t ∈ get_expanded_types h types ∧
      ∀ a ∈ getTypePath h t, a ∈ get_expanded_types h types := by
  obtain ⟨n, hn⟩ := lookup_of_hasType hl
  exact ⟨mem_expanded_of_mem_path ht (mem_getTypePath_self hn),
    fun a ha => mem_expanded_of_mem_path ht ha⟩

/-- Claim C6, witnessed on the walkthrough hierarchy with input `[B]`. -/
theorem claim_C6_witness :
    ("B" ∈ (["B"] : List String)) ∧ hasType exampleH "B" = true ∧
      ("B" ∈ get_expanded_types exampleH ["B"] ∧
        ∀ a ∈ getTypePath exampleH "B", a ∈ get_expanded_types exampleH ["B"]) :=
  ⟨by decide, by decide, claim_C6 exampleH ["B"] "B" (by decide) (by decide)⟩

/-- Claim C7: `ndcg` fails (yields `none`, the embedding of the float
division-by-zero failure) exactly when the ideal DCG is 0; when the ideal
DCG is positive it returns the quotient of the two DCGs; and `dcg` is the
sum of `gains[i] / log2(i + 2)` over the first `min(k, length)` positions. -/
theorem claim_C7 (gains ideal_gains : List ℝ) (k : Nat) :
    (ndcg gains ideal_gains k = none ↔ dcg ideal_gains k = 0) ∧
      (0 < dcg ideal_gains k →
        ndcg gains ideal_gains k = some (dcg gains k / dcg ideal_gains k)) ∧
      dcg gains k = ∑ i ∈ Finset.range (min k gains.length),
        gains.getD i 0 / Real.logb 2 (i + 2) := by
  refine ⟨?_, ?_, rfl⟩
  · unfold ndcg
    split_ifs with h0
    · simp [h0]
    · simp [h0]
  · intro hpos
    unfold ndcg
    rw [if_neg (ne_of_gt hpos)]

/-- Claim C8: a gold question id with no system record is scored with a
substituted empty prediction (which is inserted into the system-output map),
deterministically yields a category mismatch, contributes the single
accuracy value 0 and nothing to the NDCG aggregates. -/
theorem claim_C8 (h : Hierarchy) (md : Nat) (so : SysMap) (qid : String)
    (gold : GoldRecord) (hmiss : List.lookup qid so = none) :
    evaluateStep h md so (qid, gold) = (so ++ [(qid, none)], Contribution.mismatch) ∧
      accContribution Contribution.mismatch = 0 ∧
      ndcgContribution Contribution.mismatch = none := by
  refine ⟨?_, rfl, rfl⟩
  rw [evaluateStep_none hmiss, evaluateQuestion_missing]

/-- Claim C8, witnessed on a concrete missing question id. -/
theorem claim_C8_witness :
    List.lookup "q1" ([] : SysMap) = none ∧
      (evaluateStep exampleH 2 [] ("q1", ⟨"resource", ["A"]⟩)
          = ([("q1", none)], Contribution.mismatch) ∧
        accContribution Contribution.mismatch = 0 ∧
        ndcgContribution Contribution.mismatch = none) :=
  ⟨rfl, claim_C8 exampleH 2 [] "q1" ⟨"resource", ["A"]⟩ rfl⟩

/-- Claim C9 fails on the code: the scorer also mutates the system-output
mapping, inserting an empty record for a gold question id with no
prediction.  Concretely, a run over one unmatched question changes the
(threaded) system-output map. -/
theorem claim_C9_counterexample :
    (evaluateRun exampleH 2 [("q1", ⟨"resource", ["A"]⟩)] []).1 ≠ [] := by
  with_unfolding_all decide

/-- Claim C9 as amended: across a whole run, the only change to the threaded
system-output map is the appending of empty-prediction entries, one for each
gold question id that was absent; the hierarchy table and the ground truth
are read-only parameters of the embedding (the path cache is modelled by
recomputation of the pure path function). -/
theorem claim_C9_amended (h : Hierarchy) (md : Nat)
    (gt : List (String × GoldRecord)) (so : SysMap) :
    (evaluateRun h md gt so).1 = so ++ missingEntries gt so ∧
      ∀ p ∈ missingEntries gt so,
        p.2 = none ∧ List.lookup p.1 so = none ∧ p.1 ∈ gt.map Prod.fst :=
  evaluateRun_sysMap h md gt so

/-- Claim C10: on a non-empty type set inside a depth-consistent (hence
acyclic) hierarchy the most-specific filter never returns the empty set; and
in the resource branch the question is excluded from NDCG aggregation
exactly when the raw gold type list is empty, the emptiness check being
performed before most-specific filtering. -/
theorem claim_C10 (h : Hierarchy) (md : Nat) (types : List String)
    (gold : GoldRecord) (r : SysRecord)
    (hc : consistent h) (hne : types ≠ []) (hm : ∀ t ∈ types, hasType h t = true)
    (hcat : gold.category = "resource") (hmatch : r.category = gold.category) :
    get_most_specific_types h types ≠ [] ∧
      (evaluateQuestion h md gold (some r) = Contribution.skipped ↔ gold.type = []) := by
  refine ⟨get_most_specific_ne_nil hc hne hm, ?_⟩
  rw [evaluateQuestion_resource hcat hmatch]
  by_cases hempty : gold.type = []
  · simp [hempty]
  · simp [hempty]

/-- Claim C10, witnessed on the walkthrough hierarchy with a non-empty gold
list. -/
theorem claim_C10_witness :
    consistent exampleH ∧ (["A", "B"] : List String) ≠ [] ∧
      (∀ t ∈ ["A", "B"], hasType exampleH t = true) ∧
      (GoldRecord.mk "resource" ["A"]).category = "resource" ∧
      (SysRecord.mk "resource" ["A", "B", "C"]).category
          = (GoldRecord.mk "resource" ["A"]).category ∧
      (get_most_specific_types exampleH ["A", "B"] ≠ [] ∧
        (evaluateQuestion exampleH 2 (GoldRecord.mk "resource" ["A"])
            (some (SysRecord.mk "resource" ["A", "B", "C"])) = Contribution.skipped ↔
          (GoldRecord.mk "resource" ["A"]).type = [])) :=
  ⟨by decide, by decide, by decide, rfl, rfl,
    claim_C10 exampleH 2 ["A", "B"] (GoldRecord.mk "resource" ["A"])
      (SysRecord.mk "resource" ["A", "B", "C"])
      (by decide) (by decide) (by decide) rfl rfl⟩

end SmartTask
